import Mathlib

/-!
Verification of the AT24C256 EEPROM driver.

The development shallowly embeds the driver's byte-level transfer engine
(`write` single-byte and multi-byte overloads, `write_page`, `read`
overloads), its generic contiguous-range marshaling layer, and the
device-handle move/destruction lifecycle, together with a model of the
EEPROM device itself (in-page address wraparound on write bursts,
full-address-space rollover on sequential reads).  Machine integers are
modelled as `Nat`/`Int` with explicit reductions where C integer
conversions occur.  The I2C transport is modelled as always succeeding,
so the theorems isolate the driver's own validation and addressing
logic.
-/

namespace AT24C256

/-- The EEPROM's memory contents, keyed by word address in `[0, 32768)`. -/
abbrev Mem := Nat → Nat

/-- `PAGE_COUNT` from the header: 512 pages. -/
def PAGE_COUNT : Nat := 512

/-- `PAGE_SIZE` from the header: 64 bytes per page. -/
def PAGE_SIZE : Nat := 64

/-- `MEMORY_SIZE = PAGE_COUNT * PAGE_SIZE` from the header. -/
def MEMORY_SIZE : Nat := PAGE_COUNT * PAGE_SIZE

/-- The all-zero memory, used as a concrete starting state. -/
def mem0 : Mem := fun _ => 0

/-- Update one memory cell. -/
def memSet (m : Mem) (a v : Nat) : Mem := fun x => if x = a then v else m x

/-- Store a list of bytes at consecutive addresses (no wraparound);
used only to state what a correctly split write achieves. -/
def storeList (m : Mem) (a : Nat) : List Nat → Mem
  | [] => m
  | b :: rest => storeList (memSet m a b) (a + 1) rest

/-- Address written by the `i`-th byte of a device write burst starting at
word address `w`: the AT24C256's internal address counter wraps within the
64-byte page during a single write transaction. -/
def pageWrapAddr (w i : Nat) : Nat := w / 64 * 64 + (w % 64 + i) % 64

/-- The device consuming the data bytes of a write transaction, one byte at
a time, with in-page wraparound of the address counter. -/
def devBurst (w : Nat) : Nat → Mem → List Nat → Mem
  | _, m, [] => m
  | i, m, b :: rest => devBurst w (i + 1) (memSet m (pageWrapAddr w i) b) rest

/-- The device receiving an I2C write payload: the first two bytes select
the word address (the device keeps its low 15 bits), the rest are data. -/
def devTransmit (m : Mem) (payload : List Nat) : Mem :=
  match payload with
  | hi :: lo :: data => devBurst ((hi * 256 + lo) % 32768) 0 m data
  | _ => m

/-- The device serving a sequential read of `n` bytes from word address
`w`: the address counter rolls over the whole address space to 0x0000. -/
def devRead (m : Mem) (w n : Nat) : List Nat :=
  (List.range n).map fun i => m ((w + i) % 32768)

/-- `AT24C256::write(uint16_t address, uint8_t byte)`: optional bound
check, then one transmit of the 2-byte big-endian address plus the data
byte.  The transport is modelled as succeeding. -/
def writeByte (safe : Bool) (m : Mem) (address byte : Nat) : Bool × Mem :=
  if safe && decide (address > MEMORY_SIZE - 1) then (false, m)
  else (true, devTransmit m [(address >>> 8) % 256, address % 256, byte])

/-- `AT24C256::write_page(uint16_t address, uint8_t* buffer, uint16_t
size)`: in safe mode rejects a set high address bit, and rejects ranges
whose first and last byte fall in different pages.  The page comparison
is `int` arithmetic in the source (`(address >> 6) !=
((address+size-1) >> 6)`), so it is modelled on `Int` with Euclidean
division (C++ arithmetic right shift).  On success the 2-byte address
prefix plus `size` bytes of the buffer are transmitted. -/
def write_page (safe : Bool) (m : Mem) (address : Nat) (buffer : List Nat)
    (size : Nat) : Bool × Mem :=
  if safe && decide (address &&& 0x8000 ≠ 0) then (false, m)
  else if safe && decide
      (Int.ediv (address : Int) 64 ≠ Int.ediv ((address : Int) + (size : Int) - 1) 64) then
    (false, m)
  else
    (true, devTransmit m ((address >>> 8) % 256 :: address % 256 :: buffer.take size))

/-- The page loop of `AT24C256::write(uint16_t, uint8_t*, uint16_t)`.
`fuel` is the remaining iteration count (`page_count - i` in the source),
`sp` is `start_page`, `i` the loop index, `rem` the remaining size,
`addr` the current address and `buf` the current buffer cursor.  The
`% 65536` reductions are the `uint16_t` conversions of the source; the
`% 256` reduction is the `uint8_t byte_count` conversion.  Besides the
success flag and the final memory, the trace of issued
`write_page (address, byte_count)` calls is returned. -/
def writeLoop (safe : Bool) (sp : Nat) :
    Nat → Nat → Mem → Nat → Nat → List Nat → Bool × Mem × List (Nat × Nat)
  | 0, _, m, _, _, _ => (true, m, [])
  | fuel + 1, i, m, rem, addr, buf =>
    let next_page_addr := ((sp + i + 1) <<< 6) % 65536
    let page_byte_remaining := (next_page_addr + 65536 - addr) % 65536
    let byte_count := min rem page_byte_remaining % 256
    match write_page safe m addr buf byte_count with
    | (false, m1) => (false, m1, [(addr, byte_count)])
    | (true, m1) =>
      let r := writeLoop safe sp fuel (i + 1) m1 ((rem + 65536 - byte_count) % 65536)
        ((addr + byte_count) % 65536) (buf.drop byte_count)
      (r.1, r.2.1, (addr, byte_count) :: r.2.2)

/-- `AT24C256::write(uint16_t address, uint8_t* buffer, uint16_t size)`:
in safe mode rejects `address + size > MEMORY_SIZE - 1` (int arithmetic),
then splits the range into single-page writes.  `end_page` and
`page_count` are computed in `int` arithmetic and converted to
`uint16_t`, modelled by `Int.ediv`/`Int.emod`. -/
def writeBuffer (safe : Bool) (m : Mem) (address : Nat) (buffer : List Nat)
    (size : Nat) : Bool × Mem × List (Nat × Nat) :=
  if safe && decide (address + size > MEMORY_SIZE - 1) then (false, m, [])
  else
    let start_page := address >>> 6
    let end_page := ((Int.ediv ((address : Int) + (size : Int) - 1) 64).emod 65536).toNat
    let page_count := (((end_page : Int) - (start_page : Int) + 1).emod 65536).toNat
    writeLoop safe start_page page_count 0 m size address buffer

/-- `AT24C256::read(uint16_t address)`: in safe mode rejects a set high
address bit, then transmits the 2-byte address and receives one byte.
The transport is modelled as succeeding, so the result is the device's
byte at the selected word address. -/
def readByte (safe : Bool) (m : Mem) (address : Nat) : Option Nat :=
  if safe && decide (address &&& 0x8000 ≠ 0) then none
  else some (m ((((address >>> 8) % 256) * 256 + address % 256) % 32768))

/-- `AT24C256::read(uint16_t address, uint8_t* buffer, size_t size)`: in
safe mode rejects a set high address bit only — the size is never
validated or page-split — then receives `size` bytes sequentially, the
device's address counter rolling over to 0x0000 at the top. -/
def readBuffer (safe : Bool) (m : Mem) (address : Nat) (size : Nat) :
    Option (List Nat) :=
  if safe && decide (address &&& 0x8000 ≠ 0) then none
  else some (devRead m ((((address >>> 8) % 256) * 256 + address % 256) % 32768) size)

/-- A contiguous, sized range of elements as the generic marshaling layer
sees it: an element byte width (`sizeof` of the element type) and the
byte representation of each element.  `std::ranges::size` is
`elems.length`, `std::ranges::data` exposes the flattened bytes. -/
structure CRange where
  elemSize : Nat
  elems : List (List Nat)

/-- The raw bytes behind `std::ranges::data` on a `CRange`. -/
def CRange.bytes (r : CRange) : List Nat := r.elems.flatten

/-- `AT24C256::write(uint16_t, R&&, size_t count)`: in safe mode rejects
`count` greater than the range's own element count, otherwise delegates
to the byte-level write with `count * sizeof(element)` bytes. -/
def writeRangeCount (safe : Bool) (m : Mem) (address : Nat) (r : CRange)
    (count : Nat) : Bool × Mem × List (Nat × Nat) :=
  if safe && decide (count > r.elems.length) then (false, m, [])
  else writeBuffer safe m address r.bytes (count * r.elemSize)

/-- `AT24C256::read(uint16_t, R&, size_t count)`: in safe mode rejects
`count` greater than the destination range's element count, otherwise
delegates to the byte-level read of `count * sizeof(element)` bytes. -/
def readIntoRange (safe : Bool) (m : Mem) (address : Nat) (r : CRange)
    (count : Nat) : Option (List Nat) :=
  if safe && decide (count > r.elems.length) then none
  else readBuffer safe m address (count * r.elemSize)

/-- Modelled from the spec: the plain-data value overloads
`write(uint16_t, T)` / `read<T>(uint16_t)` used by the tests and
examples are not present in the sources at hand (only their callers
are).  Per the spec they treat the value as a raw `sizeof(T)`-byte span
— shallow copy including internal padding — and delegate to the
byte-level engine.  The value is therefore modelled by its in-memory
byte list. -/
def writeValue (safe : Bool) (m : Mem) (address : Nat) (bytes : List Nat) :
    Bool × Mem × List (Nat × Nat) :=
  writeBuffer safe m address bytes bytes.length

/-- Modelled from the spec: counterpart of `writeValue`; reads back the
`sizeof(T)` bytes of a plain-data value from the device. -/
def readValue (safe : Bool) (m : Mem) (address : Nat) (size : Nat) :
    Option (List Nat) :=
  readBuffer safe m address size

/-- Reference chunking of a write range: starting at `addr` with `rem`
bytes left, each step takes `min rem (64 - addr % 64)` bytes (the bytes
until the next page boundary) for `fuel` steps.  The loop trace of
`writeBuffer` is proved equal to this. -/
def chunksGo : Nat → Nat → Nat → List (Nat × Nat)
  | 0, _, _ => []
  | fuel + 1, addr, rem =>
    let bc := min rem (64 - addr % 64)
    (addr, bc) :: chunksGo fuel (addr + bc) (rem - bc)

/-- Operations on device handles, mirroring the constructor,
move constructor, move assignment and destructor of `AT24C256`.
Handles and registrations are named by numbers. -/
inductive HOp where
  | construct (h reg : Nat)
  | moveCtor (dst src : Nat)
  | moveAssign (dst src : Nat)
  | destruct (h : Nat)
deriving DecidableEq

/-- Lifecycle state: each live handle with the registration it holds
(`none` after being moved from), the registrations created so far, and
the registrations deregistered so far. -/
structure HState where
  handles : List (Nat × Option Nat)
  created : List Nat
  deregs : List Nat
deriving DecidableEq

/-- The empty lifecycle state. -/
def HState.init : HState := ⟨[], [], []⟩

/-- Replace the registration held by handle `h`. -/
def setH (hs : List (Nat × Option Nat)) (h : Nat) (v : Option Nat) :
    List (Nat × Option Nat) :=
  hs.map fun p => if p.1 = h then (h, v) else p

/-- The registration held by handle `h` (`none` if absent or empty). -/
def getH (hs : List (Nat × Option Nat)) (h : Nat) : Option Nat :=
  (hs.lookup h).join

/-- One lifecycle step, following the source member functions:
construction registers a fresh device; move construction and move
assignment copy `_dev_handle` from the source and null the source (move
assignment does not release what the destination previously held); the
destructor deregisters the handle's registration if it still holds
one. -/
def hstep (s : HState) : HOp → HState
  | .construct h reg =>
    { s with handles := (h, some reg) :: s.handles, created := reg :: s.created }
  | .moveCtor dst src =>
    { s with handles := (dst, getH s.handles src) :: setH s.handles src none }
  | .moveAssign dst src =>
    { s with handles := setH (setH s.handles dst (getH s.handles src)) src none }
  | .destruct h =>
    match getH s.handles h with
    | some reg =>
      { s with handles := s.handles.filter fun p => p.1 ≠ h,
               deregs := reg :: s.deregs }
    | none => { s with handles := s.handles.filter fun p => p.1 ≠ h }

/-- Run a sequence of lifecycle operations from the empty state. -/
def runOps (ops : List HOp) : HState := ops.foldl hstep HState.init

/-! ### Arithmetic and memory-model lemmas -/

theorem land_high_eq_zero {a : Nat} (h : a < 32768) : a &&& 32768 = 0 := by
  have hb : a.testBit 15 = false :=
    Nat.testBit_lt_two_pow (lt_of_lt_of_le h (by norm_num))
  have h2 : a &&& 2 ^ 15 = (a.testBit 15).toNat * 2 ^ 15 := Nat.and_two_pow a 15
  rw [hb] at h2
  norm_num at h2
  exact h2

theorem shiftRight8_eq (a : Nat) : a >>> 8 = a / 256 := by
  rw [Nat.shiftRight_eq_div_pow]

theorem shiftRight6_eq (a : Nat) : a >>> 6 = a / 64 := by
  rw [Nat.shiftRight_eq_div_pow]

theorem shiftLeft6_eq (a : Nat) : a <<< 6 = a * 64 := by
  rw [Nat.shiftLeft_eq]

theorem addrRecompose {a : Nat} (h : a < 32768) :
    ((a >>> 8) % 256 * 256 + a % 256) % 32768 = a := by
  rw [shiftRight8_eq]; omega

theorem int_ediv_64 (p : Nat) : Int.ediv (p : Int) 64 = ((p / 64 : Nat) : Int) := rfl

theorem int_emod_eq (a b : Int) : Int.emod a b = a % b := rfl

theorem storeList_get (l : List Nat) : ∀ (m : Mem) (a x : Nat),
    storeList m a l x =
      if a ≤ x ∧ x < a + l.length then l.getD (x - a) 0 else m x := by
  induction l with
  | nil =>
    intro m a x
    simp only [storeList, List.length_nil]
    rw [if_neg (by omega)]
  | cons b rest ih =>
    intro m a x
    simp only [storeList]
    rw [ih]
    by_cases h1 : x = a
    · subst h1
      rw [if_neg (by omega), if_pos (by simp only [List.length_cons]; omega)]
      simp [memSet]
    · by_cases h2 : a + 1 ≤ x ∧ x < a + 1 + rest.length
      · rw [if_pos h2, if_pos (by simp only [List.length_cons]; omega)]
        rw [show x - a = (x - (a + 1)) + 1 from by omega]
        simp
      · rw [if_neg h2, if_neg (by simp only [List.length_cons]; omega)]
        simp [memSet, h1]

theorem storeList_append (l1 l2 : List Nat) : ∀ (m : Mem) (a : Nat),
    storeList m a (l1 ++ l2) = storeList (storeList m a l1) (a + l1.length) l2 := by
  induction l1 with
  | nil => intro m a; simp [storeList]
  | cons b rest ih =>
    intro m a
    simp only [List.cons_append, storeList, List.length_cons]
    rw [List.append_eq, ih]
    rw [show a + 1 + rest.length = a + (rest.length + 1) from by omega]

theorem devBurst_eq_storeList (data : List Nat) : ∀ (m : Mem) (w i : Nat),
    w % 64 + i + data.length ≤ 64 →
    devBurst w i m data = storeList m (w + i) data := by
  induction data with
  | nil => intro m w i _; simp [devBurst, storeList]
  | cons b rest ih =>
    intro m w i h
    simp only [List.length_cons] at h
    have hp : pageWrapAddr w i = w + i := by unfold pageWrapAddr; omega
    simp only [devBurst, storeList, hp]
    rw [ih _ _ _ (by omega), ← Nat.add_assoc]

theorem write_page_ok (m : Mem) (addr n : Nat) (buf : List Nat)
    (h1 : addr ≤ 32767) (h2 : 1 ≤ n) (h3 : addr % 64 + n ≤ 64) :
    write_page true m addr buf n = (true, storeList m addr (buf.take n)) := by
  have hb : addr &&& 0x8000 = 0 := land_high_eq_zero (by omega)
  have hcast : (addr : Int) + (n : Int) - 1 = ((addr + n - 1 : Nat) : Int) := by
    omega
  have hoverlap : Int.ediv (addr : Int) 64 = Int.ediv ((addr : Int) + (n : Int) - 1) 64 := by
    rw [hcast, int_ediv_64, int_ediv_64]
    norm_cast
    omega
  have hw : ((addr >>> 8) % 256 * 256 + addr % 256) % 32768 = addr :=
    addrRecompose (by omega)
  unfold write_page
  rw [if_neg (by simp [hb])]
  rw [if_neg (by simp [hoverlap])]
  simp only [devTransmit, hw]
  rw [devBurst_eq_storeList _ _ _ _ (by
    have hlt : (buf.take n).length ≤ n := List.length_take_le n buf
    omega)]
  rfl

/-- The page loop, run with the invariant of `writeBuffer` (at least one
byte remaining, range inside the address space, buffer long enough,
`sp + i` the current page, fuel the number of pages left to cover),
succeeds, stores the first `rem` buffer bytes linearly at `addr`, and
issues exactly the single-page chunks described by `chunksGo`. -/
theorem writeLoop_ok : ∀ (fuel sp i : Nat) (m : Mem) (rem addr : Nat) (buf : List Nat),
    1 ≤ rem → addr + rem ≤ 32768 → rem ≤ buf.length →
    sp + i = addr / 64 →
    fuel = (addr + rem - 1) / 64 - addr / 64 + 1 →
    writeLoop true sp fuel i m rem addr buf =
      (true, storeList m addr (buf.take rem), chunksGo fuel addr rem) := by
  intro fuel
  induction fuel with
  | zero => intro sp i m rem addr buf h1 _ _ _ h5; omega
  | succ fuel ih =>
    intro sp i m rem addr buf h1 h2 h3 hsp hfuel
    have haddr : addr ≤ 32767 := by omega
    have hnext : ((sp + i + 1) <<< 6) % 65536 = (addr / 64 + 1) * 64 := by
      rw [shiftLeft6_eq, hsp]
      omega
    simp only [writeLoop, hnext]
    have hpbr : ((addr / 64 + 1) * 64 + 65536 - addr) % 65536 = 64 - addr % 64 := by
      omega
    rw [hpbr]
    have hbcr : min rem (64 - addr % 64) % 256 = min rem (64 - addr % 64) := by
      omega
    rw [hbcr]
    set bc := min rem (64 - addr % 64) with hbc
    have hbc1 : 1 ≤ bc := by omega
    have hbc2 : addr % 64 + bc ≤ 64 := by omega
    have hbcle : bc ≤ rem := by omega
    rw [write_page_ok m addr bc buf haddr hbc1 hbc2]
    have hrem' : (rem + 65536 - bc) % 65536 = rem - bc := by omega
    have haddr' : (addr + bc) % 65536 = addr + bc := by omega
    rw [hrem', haddr']
    by_cases hc : rem ≤ 64 - addr % 64
    · have hbceq : bc = rem := by omega
      have hf0 : fuel = 0 := by omega
      subst hf0
      simp only [writeLoop, chunksGo, ← hbc, hbceq]
    · dsimp only
      have hbceq : bc = 64 - addr % 64 := by omega
      have hsplit : buf.take rem = buf.take bc ++ (buf.drop bc).take (rem - bc) := by
        conv_lhs => rw [show rem = bc + (rem - bc) from by omega]
        exact List.take_add buf bc (rem - bc)
      have hltake : (buf.take bc).length = bc := by
        rw [List.length_take]; omega
      rw [ih sp (i + 1) (storeList m addr (buf.take bc)) (rem - bc) (addr + bc)
        (buf.drop bc) (by omega) (by omega)
        (by rw [List.length_drop]; omega) (by omega) (by omega)]
      simp only [chunksGo, ← hbc]
      rw [hsplit, storeList_append, hltake]

/-- `writeBuffer` in safe mode, on an accepted nonempty range
(`address + size ≤ 0x7FFF`) with a buffer of sufficient length, succeeds,
stores the first `size` buffer bytes linearly at `address`, and issues
the `chunksGo` page chunks, one per page covered. -/
theorem writeBuffer_ok (m : Mem) (address size : Nat) (buf : List Nat)
    (h1 : 1 ≤ size) (h2 : address + size ≤ 32767) (h3 : size ≤ buf.length) :
    writeBuffer true m address buf size =
      (true, storeList m address (buf.take size),
        chunksGo ((address + size - 1) / 64 - address / 64 + 1) address size) := by
  unfold writeBuffer
  rw [if_neg (by simp [MEMORY_SIZE, PAGE_COUNT, PAGE_SIZE]; omega)]
  dsimp only
  have hcast : (address : Int) + (size : Int) - 1 = ((address + size - 1 : Nat) : Int) := by
    omega
  have hep : ((Int.ediv ((address : Int) + (size : Int) - 1) 64).emod 65536).toNat
      = (address + size - 1) / 64 := by
    rw [hcast, int_ediv_64, int_emod_eq]
    omega
  rw [hep, shiftRight6_eq]
  have hpc : (((((address + size - 1) / 64 : Nat) : Int) - ((address / 64 : Nat) : Int) + 1).emod 65536).toNat
      = (address + size - 1) / 64 - address / 64 + 1 := by
    rw [int_emod_eq]
    omega
  rw [hpc]
  exact writeLoop_ok _ (address / 64) 0 m size address buf h1 (by omega) h3
    (by omega) rfl

/-- In safe mode a buffer read with the high address bit clear always
succeeds, whatever the size: the only validation is on the start
address. -/
theorem readBuffer_ok (m : Mem) (address size : Nat) (h : address < 32768) :
    readBuffer true m address size = some (devRead m address size) := by
  unfold readBuffer
  rw [if_neg (by simp [land_high_eq_zero h])]
  rw [addrRecompose h]

/-- Reading back a linearly stored byte list that fits below the top of
the address space returns exactly that list. -/
theorem storeList_roundtrip (m : Mem) (address : Nat) (data : List Nat)
    (h : address + data.length ≤ 32768) :
    devRead (storeList m address data) address data.length = data := by
  apply List.ext_get
  · simp [devRead]
  · intro j h1 h2
    simp only [devRead, List.get_eq_getElem, List.getElem_map, List.getElem_range]
    rw [Nat.mod_eq_of_lt (by omega)]
    rw [storeList_get]
    rw [if_pos (by omega)]
    rw [show address + j - address = j from by omega]
    exact List.getD_eq_getElem data 0 h2

/-! ### Properties of the page chunking -/

theorem chunksGo_length (fuel : Nat) : ∀ addr rem, (chunksGo fuel addr rem).length = fuel := by
  induction fuel with
  | zero => intro addr rem; simp [chunksGo]
  | succ f ih => intro addr rem; simp [chunksGo, ih]

theorem chunksGo_sum_zero (fuel : Nat) : ∀ addr,
    ((chunksGo fuel addr 0).map Prod.snd).sum = 0 := by
  induction fuel with
  | zero => intro addr; simp [chunksGo]
  | succ f ih => intro addr; simp [chunksGo, ih]

theorem chunksGo_sum (fuel : Nat) : ∀ addr rem, 1 ≤ rem →
    fuel = (addr + rem - 1) / 64 - addr / 64 + 1 →
    ((chunksGo fuel addr rem).map Prod.snd).sum = rem := by
  induction fuel with
  | zero => intro addr rem h1 h5; omega
  | succ f ih =>
    intro addr rem h1 hf
    simp only [chunksGo, List.map_cons, List.sum_cons]
    by_cases hc : rem ≤ 64 - addr % 64
    · rw [show min rem (64 - addr % 64) = rem from by omega]
      simp [chunksGo_sum_zero]
    · rw [show min rem (64 - addr % 64) = 64 - addr % 64 from by omega]
      rw [ih (addr + (64 - addr % 64)) (rem - (64 - addr % 64)) (by omega) (by omega)]
      omega

theorem chunksGo_start (fuel : Nat) : ∀ addr rem j (h : j < (chunksGo fuel addr rem).length),
    ((chunksGo fuel addr rem).get ⟨j, h⟩).1
      = addr + (((chunksGo fuel addr rem).take j).map Prod.snd).sum := by
  induction fuel with
  | zero => intro addr rem j h; rw [chunksGo_length] at h; omega
  | succ f ih =>
    intro addr rem j h
    match j with
    | 0 => simp [chunksGo]
    | j + 1 =>
      have h1 : j < (chunksGo f (addr + min rem (64 - addr % 64)) (rem - min rem (64 - addr % 64))).length := by
        rw [chunksGo_length]
        rw [chunksGo_length] at h
        omega
      simp only [chunksGo, List.get_cons_succ, List.take_succ_cons, List.map_cons,
        List.sum_cons]
      rw [ih _ _ j h1]
      omega

theorem chunksGo_snd (fuel : Nat) : ∀ addr rem j (h : j < (chunksGo fuel addr rem).length),
    ((chunksGo fuel addr rem).get ⟨j, h⟩).2
      = min (addr + rem - ((chunksGo fuel addr rem).get ⟨j, h⟩).1)
          (64 - ((chunksGo fuel addr rem).get ⟨j, h⟩).1 % 64) := by
  induction fuel with
  | zero => intro addr rem j h; rw [chunksGo_length] at h; omega
  | succ f ih =>
    intro addr rem j h
    match j with
    | 0 => simp [chunksGo]
    | j + 1 =>
      have h1 : j < (chunksGo f (addr + min rem (64 - addr % 64)) (rem - min rem (64 - addr % 64))).length := by
        rw [chunksGo_length]
        rw [chunksGo_length] at h
        omega
      simp only [chunksGo, List.get_cons_succ]
      rw [ih _ _ j h1]
      omega

theorem chunksGo_inpage (fuel : Nat) : ∀ addr rem, 1 ≤ rem →
    fuel = (addr + rem - 1) / 64 - addr / 64 + 1 →
    ∀ j (h : j < (chunksGo fuel addr rem).length),
      ((chunksGo fuel addr rem).get ⟨j, h⟩).1 % 64
          + ((chunksGo fuel addr rem).get ⟨j, h⟩).2 ≤ 64
        ∧ 1 ≤ ((chunksGo fuel addr rem).get ⟨j, h⟩).2 := by
  induction fuel with
  | zero => intro addr rem h1 h5; omega
  | succ f ih =>
    intro addr rem h1 hf j h
    match j with
    | 0 => simp [chunksGo]; omega
    | j + 1 =>
      by_cases hc : rem ≤ 64 - addr % 64
      · exfalso
        rw [chunksGo_length] at h
        omega
      · have h1' : j < (chunksGo f (addr + min rem (64 - addr % 64)) (rem - min rem (64 - addr % 64))).length := by
          rw [chunksGo_length]
          rw [chunksGo_length] at h
          omega
        simp only [chunksGo, List.get_cons_succ]
        have := ih (addr + min rem (64 - addr % 64)) (rem - min rem (64 - addr % 64))
          (by omega) (by omega) j h1'
        exact this

/-- The flattened bytes of a range whose elements all have width
`es` number `elems.length * es`. -/
theorem flatten_length_const (l : List (List Nat)) (es : Nat)
    (h : ∀ e ∈ l, e.length = es) : l.flatten.length = l.length * es := by
  induction l with
  | nil => simp
  | cons x xs ih =>
    simp only [List.flatten_cons, List.length_append, List.length_cons]
    rw [h x (List.mem_cons_self x xs), ih (fun e he => h e (List.mem_cons_of_mem x he))]
    ring

/-! ### Claim theorems -/

/-- C1: for every start address and byte sequence spanning multiple pages
whose write is accepted in safe mode, the multi-byte write succeeds and
reading back the same address range with the buffer read returns exactly
the byte sequence written, including the bytes on both sides of every
64-byte page boundary crossed. -/
theorem C1_multipage_write_read_roundtrip (m : Mem) (address : Nat) (data : List Nat)
    (h1 : 1 ≤ data.length) (h2 : address + data.length ≤ 32767)
    (h3 : address / 64 ≠ (address + data.length - 1) / 64) :
    (writeBuffer true m address data data.length).1 = true ∧
    readBuffer true (writeBuffer true m address data data.length).2.1 address data.length
      = some data := by
  rw [writeBuffer_ok m address data.length data h1 h2 le_rfl]
  dsimp only
  refine ⟨rfl, ?_⟩
  rw [readBuffer_ok _ _ _ (by omega), List.take_length,
    storeList_roundtrip _ _ _ (by omega)]

theorem C1_witness :
    (writeBuffer true mem0 381 [1, 2, 3, 4, 5] 5).1 = true ∧
    readBuffer true (writeBuffer true mem0 381 [1, 2, 3, 4, 5] 5).2.1 381 5
      = some [1, 2, 3, 4, 5] :=
  C1_multipage_write_read_roundtrip mem0 381 [1, 2, 3, 4, 5]
    (by decide) (by decide) (by decide)

/-- C2: for an accepted multi-byte write of `size ≥ 1` bytes, the page
loop issues exactly `endPage - startPage + 1` single-page writes; the
`j`-th chunk starts where the previous one ended (its start address is
`address` plus the previously written byte counts), its byte count is
`min(remainingBytes, bytesUntilNextPageBoundary)`, it stays within one
64-byte page and is nonempty, and the chunk sizes sum to `size`, so the
chunks partition `[address, address+size)` in order. -/
theorem C2_page_split (m : Mem) (address size : Nat) (data : List Nat)
    (t : List (Nat × Nat))
    (h1 : 1 ≤ size) (h2 : address + size ≤ 32767) (h3 : size ≤ data.length)
    (ht : t = (writeBuffer true m address data size).2.2) :
    t.length = (address + size - 1) / 64 - address / 64 + 1 ∧
    (∀ j (h : j < t.length),
      (t.get ⟨j, h⟩).1 = address + ((t.take j).map Prod.snd).sum) ∧
    (∀ j (h : j < t.length),
      (t.get ⟨j, h⟩).2 = min (address + size - (t.get ⟨j, h⟩).1)
        (64 - (t.get ⟨j, h⟩).1 % 64)) ∧
    (∀ j (h : j < t.length),
      (t.get ⟨j, h⟩).1 % 64 + (t.get ⟨j, h⟩).2 ≤ 64 ∧ 1 ≤ (t.get ⟨j, h⟩).2) ∧
    (t.map Prod.snd).sum = size := by
  rw [writeBuffer_ok m address size data h1 h2 h3] at ht
  dsimp only at ht
  subst ht
  exact ⟨chunksGo_length _ _ _, chunksGo_start _ _ _, chunksGo_snd _ _ _,
    chunksGo_inpage _ _ _ h1 rfl, chunksGo_sum _ _ _ h1 rfl⟩

theorem C2_witness :
    ([(381, 3), (384, 2)] : List (Nat × Nat)).length
        = (381 + 5 - 1) / 64 - 381 / 64 + 1 ∧
    (([(381, 3), (384, 2)] : List (Nat × Nat)).map Prod.snd).sum = 5 := by
  have h := C2_page_split mem0 381 5 [1, 2, 3, 4, 5] [(381, 3), (384, 2)]
    (by decide) (by decide) (by decide) (by decide)
  exact ⟨h.1, h.2.2.2.2⟩

/-- C3: the claim states the multi-byte safe-mode write fails exactly
when `address + size - 1 > 0x7FFF`, so that a write whose last byte
lands exactly on 0x7FFF succeeds.  The code's guard is
`(address + size) > MEMORY_SIZE - 1`, which also rejects every write
whose last byte is exactly 0x7FFF: writing one byte at 0x7FFF through
the buffer write fails although the single-byte write accepts the very
same address. -/
theorem C3_last_byte_rejected :
    (writeBuffer true mem0 0x7FFF [42] 1).1 = false ∧
    (writeByte true mem0 0x7FFF 42).1 = true := by
  constructor <;> rfl

/-- C4: in safe mode, `write_page` on a valid start address (high bit
clear) with a nonempty byte range fails exactly when the range's first
and last byte fall in different 64-byte pages, and succeeds whenever the
range is fully contained in one page. -/
theorem C4_write_page_overlap_iff (m : Mem) (address size : Nat) (buffer : List Nat)
    (h1 : address < 32768) (h2 : 1 ≤ size) :
    (write_page true m address buffer size).1 = false
      ↔ address / 64 ≠ (address + size - 1) / 64 := by
  unfold write_page
  rw [if_neg (by simp [land_high_eq_zero h1])]
  have hcast : (address : Int) + (size : Int) - 1 = ((address + size - 1 : Nat) : Int) := by
    omega
  by_cases hov : address / 64 = (address + size - 1) / 64
  · have heq : Int.ediv (address : Int) 64 = Int.ediv ((address : Int) + (size : Int) - 1) 64 := by
      rw [hcast, int_ediv_64, int_ediv_64]
      exact_mod_cast hov
    rw [if_neg (by simp [heq])]
    simp [hov]
  · have hne : Int.ediv (address : Int) 64 ≠ Int.ediv ((address : Int) + (size : Int) - 1) 64 := by
      rw [hcast, int_ediv_64, int_ediv_64]
      intro hh
      exact hov (by exact_mod_cast hh)
    rw [if_pos (by simp [hne])]
    simp [hov]

theorem C4_witness :
    (write_page true mem0 381 [1, 2, 3, 4, 5] 5).1 = false :=
  (C4_write_page_overlap_iff mem0 381 5 [1, 2, 3, 4, 5]
    (by decide) (by decide)).mpr (by decide)

/-- C5: for every address in `[0, 0x7FFF]` and every byte value, the
safe-mode single-byte write succeeds and a subsequent single-byte read
of the same address returns exactly the written value. -/
theorem C5_single_byte_roundtrip (m : Mem) (address v : Nat)
    (h1 : address ≤ 0x7FFF) (h2 : v < 256) :
    (writeByte true m address v).1 = true ∧
    readByte true (writeByte true m address v).2 address = some v := by
  have hw : ((address >>> 8) % 256 * 256 + address % 256) % 32768 = address :=
    addrRecompose (by omega)
  have hwrite : writeByte true m address v
      = (true, devTransmit m [(address >>> 8) % 256, address % 256, v]) := by
    unfold writeByte
    rw [if_neg (by simp [MEMORY_SIZE, PAGE_COUNT, PAGE_SIZE]; omega)]
  rw [hwrite]
  refine ⟨rfl, ?_⟩
  simp only [devTransmit, devBurst]
  rw [hw]
  have hp : pageWrapAddr address 0 = address := by unfold pageWrapAddr; omega
  rw [hp]
  unfold readByte
  rw [if_neg (by simp [land_high_eq_zero (show address < 32768 from by omega)])]
  rw [hw]
  simp [memSet]

theorem C5_witness :
    (writeByte true mem0 0x0212 42).1 = true ∧
    readByte true (writeByte true mem0 0x0212 42).2 0x0212 = some 42 :=
  C5_single_byte_roundtrip mem0 0x0212 42 (by decide) (by decide)

/-- C6: the claim states that over any sequence of moves and
destructions, every registration is deregistered exactly once and none
is left never-deregistered once its owner chain is fully destroyed.  The
source's move assignment overwrites the destination's `_dev_handle`
without deregistering what it held, so the destination's old
registration leaks: after constructing handles 1 and 2 (registrations 10
and 20), move-assigning 1 into 2 and destroying both handles, only
registration 10 is ever deregistered while 20 is created, owned solely
by destroyed handles, and never deregistered. -/
theorem C6_moveAssign_leak :
    (runOps [HOp.construct 1 10, HOp.construct 2 20, HOp.moveAssign 2 1,
      HOp.destruct 1, HOp.destruct 2]).handles = [] ∧
    (runOps [HOp.construct 1 10, HOp.construct 2 20, HOp.moveAssign 2 1,
      HOp.destruct 1, HOp.destruct 2]).created = [20, 10] ∧
    (runOps [HOp.construct 1 10, HOp.construct 2 20, HOp.moveAssign 2 1,
      HOp.destruct 1, HOp.destruct 2]).deregs = [10] ∧
    20 ∉ (runOps [HOp.construct 1 10, HOp.construct 2 20, HOp.moveAssign 2 1,
      HOp.destruct 1, HOp.destruct 2]).deregs := by
  refine ⟨?_, ?_, ?_, ?_⟩ <;> decide

/-- C7: in safe mode the generic range write and range read with an
explicit element count fail — returning failure and performing no bus
transaction — whenever the requested count exceeds the range's own
element count, and otherwise delegate exactly `count * sizeof(element)`
bytes to the byte-level engine: on an accepted in-bounds write exactly
that byte range of memory is updated (all other cells are untouched),
and the read returns exactly that many bytes. -/
theorem C7_range_count_check (m : Mem) (address : Nat) (r : CRange) (count : Nat)
    (hwf : ∀ e ∈ r.elems, e.length = r.elemSize) :
    (count > r.elems.length →
      writeRangeCount true m address r count = (false, m, []) ∧
      readIntoRange true m address r count = none) ∧
    (count ≤ r.elems.length → 1 ≤ count * r.elemSize →
      address + count * r.elemSize ≤ 32767 →
      (writeRangeCount true m address r count).1 = true ∧
      (∀ a, a < address ∨ address + count * r.elemSize ≤ a →
        (writeRangeCount true m address r count).2.1 a = m a) ∧
      (∀ a, address ≤ a → a < address + count * r.elemSize →
        (writeRangeCount true m address r count).2.1 a
          = (r.bytes.take (count * r.elemSize)).getD (a - address) 0) ∧
      (∃ bs, readIntoRange true m address r count = some bs ∧
        bs.length = count * r.elemSize)) := by
  constructor
  · intro hgt
    constructor
    · unfold writeRangeCount
      rw [if_pos (by simp [hgt])]
    · unfold readIntoRange
      rw [if_pos (by simp [hgt])]
  · intro hle h1 h2
    have hbl : count * r.elemSize ≤ r.bytes.length := by
      rw [CRange.bytes, flatten_length_const r.elems r.elemSize hwf]
      exact Nat.mul_le_mul_right _ hle
    have htl : (r.bytes.take (count * r.elemSize)).length = count * r.elemSize := by
      rw [List.length_take]
      omega
    have hwr : writeRangeCount true m address r count
        = writeBuffer true m address r.bytes (count * r.elemSize) := by
      unfold writeRangeCount
      rw [if_neg (by simp; omega)]
    rw [hwr, writeBuffer_ok m address (count * r.elemSize) r.bytes h1 h2 hbl]
    refine ⟨rfl, ?_, ?_, ?_⟩
    · intro a ha
      dsimp only
      rw [storeList_get, if_neg (by omega)]
    · intro a ha1 ha2
      dsimp only
      rw [storeList_get, if_pos (by omega)]
    · have hrd : readIntoRange true m address r count
          = readBuffer true m address (count * r.elemSize) := by
        unfold readIntoRange
        rw [if_neg (by simp; omega)]
      rw [hrd, readBuffer_ok _ _ _ (by omega)]
      exact ⟨_, rfl, by simp [devRead]⟩

theorem C7_witness :
    writeRangeCount true mem0 381 (CRange.mk 2 [[1, 2], [3, 4], [5, 6]]) 5
        = (false, mem0, []) ∧
    (writeRangeCount true mem0 381 (CRange.mk 2 [[1, 2], [3, 4], [5, 6]]) 2).1
        = true := by
  constructor
  · exact ((C7_range_count_check mem0 381 (CRange.mk 2 [[1, 2], [3, 4], [5, 6]]) 5
      (by decide)).1 (by decide)).1
  · exact ((C7_range_count_check mem0 381 (CRange.mk 2 [[1, 2], [3, 4], [5, 6]]) 2
      (by decide)).2 (by decide) (by decide) (by decide)).1

/-- C8: for every start address with the high bit clear, the safe-mode
buffer read succeeds for every size — the read extent is never
bounds-checked or page-split, even when `address + size` exceeds the top
of the address space — and the returned bytes come from consecutive
device addresses wrapping around to 0x0000. -/
theorem C8_read_never_bounds_checked (m : Mem) (address size : Nat)
    (h : address < 0x8000) :
    ∃ bs, readBuffer true m address size = some bs ∧ bs.length = size ∧
      ∀ i (hi : i < bs.length), bs.get ⟨i, hi⟩ = m ((address + i) % 32768) := by
  rw [readBuffer_ok m address size h]
  refine ⟨_, rfl, by simp [devRead], ?_⟩
  intro i hi
  simp only [devRead, List.get_eq_getElem, List.getElem_map, List.getElem_range]

theorem C8_witness :
    (0x7FFE : Nat) + 4 > 0x7FFF ∧ (readBuffer true mem0 0x7FFE 4).isSome = true := by
  refine ⟨by decide, ?_⟩
  obtain ⟨bs, hbs, -, -⟩ := C8_read_never_bounds_checked mem0 0x7FFE 4 (by decide)
  rw [hbs]
  rfl

/-- C9: writing the raw byte representation of a plain-data value
(including any internal padding bytes) and reading the same number of
bytes back from the same address reproduces the exact in-memory byte
pattern.  The plain-data overloads are modelled from the spec as raw
byte-span delegation to the byte-level engine. -/
theorem C9_value_roundtrip (m : Mem) (address : Nat) (bytes : List Nat)
    (h1 : 1 ≤ bytes.length) (h2 : address + bytes.length ≤ 32767) :
    (writeValue true m address bytes).1 = true ∧
    readValue true (writeValue true m address bytes).2.1 address bytes.length
      = some bytes := by
  unfold writeValue readValue
  rw [writeBuffer_ok m address bytes.length bytes h1 h2 le_rfl]
  dsimp only
  refine ⟨rfl, ?_⟩
  rw [readBuffer_ok _ _ _ (by omega), List.take_length,
    storeList_roundtrip _ _ _ (by omega)]

theorem C9_witness :
    (writeValue true mem0 266 [10, 0, 0, 0, 77, 1, 2, 3]).1 = true ∧
    readValue true (writeValue true mem0 266 [10, 0, 0, 0, 77, 1, 2, 3]).2.1 266 8
      = some [10, 0, 0, 0, 77, 1, 2, 3] :=
  C9_value_roundtrip mem0 266 [10, 0, 0, 0, 77, 1, 2, 3] (by decide) (by decide)

/-- C10: in safe mode, a zero-byte `write_page` at a page-aligned
address with the high bit clear returns false: the overlap check
compares `address >> 6` with `(address + 0 - 1) >> 6` in `int`
arithmetic, and the index `address - 1` falls before the page start, so
the empty write is rejected although it crosses no page boundary. -/
theorem C10_zero_size_page_aligned_rejected (m : Mem) (buffer : List Nat)
    (address : Nat) (h1 : address < 32768) (h2 : address % 64 = 0) :
    (write_page true m address buffer 0).1 = false := by
  unfold write_page
  rw [if_neg (by simp [land_high_eq_zero h1])]
  have hne : Int.ediv (address : Int) 64 ≠ Int.ediv ((address : Int) - 1) 64 := by
    rcases Nat.eq_zero_or_pos address with h0 | hpos
    · subst h0
      decide
    · have hm : (address : Int) - 1 = ((address - 1 : Nat) : Int) := by omega
      rw [hm, int_ediv_64, int_ediv_64]
      intro hh
      have hdiv : address / 64 = (address - 1) / 64 := by exact_mod_cast hh
      omega
  rw [if_pos (by simp [hne])]

theorem C10_witness : (write_page true mem0 64 [] 0).1 = false :=
  C10_zero_size_page_aligned_rejected mem0 [] 64 (by decide) (by decide)

end AT24C256
